import Mathlib

/-!
Shallow embedding of the value-normalization and interaction logic of the
`range-group` custom element (src/src/range-group.ts).  Numbers are modelled
as rationals; DOM input elements are modelled as records carrying the fields
the logic reads (the string value, and the optional min/max/step attributes).
-/

namespace RangeGroup

/-- Model of one underlying `input[type=range]` element: its current value and
the attributes `_normalizeValue` and `_handleKeyDown` read from it. -/
structure RangeInput where
  value : ℚ
  minAttr : Option ℚ
  maxAttr : Option ℚ
  stepAttr : Option ℚ
deriving DecidableEq, Repr

/-- Model of the component configuration: the reflected `min`, `max`,
`stepbetween` attributes, whether the `list` attribute is a non-empty string,
and the numeric values of the resolved datalist options (in document order). -/
structure Cfg where
  min : ℚ
  max : ℚ
  stepBetween : ℚ
  listSet : Bool
  opts : List ℚ
deriving DecidableEq, Repr

/-- The guard `this.list && this._datalistOptions.length > 0` used throughout
the source. -/
def hasTicks (cfg : Cfg) : Bool :=
  cfg.listSet && !cfg.opts.isEmpty

/-- The expression `this._datalistOptions.map((opt) => Number(opt.value)).sort((a, b) => a - b)`
recomputed at each use site in the source. -/
def sortedVals (cfg : Cfg) : List ℚ :=
  List.insertionSort (· ≤ ·) cfg.opts

/-- Embedding of `_snapToDataList`: a JavaScript `reduce` without initial value
over the option values, keeping the first value of minimal absolute distance. -/
def snapToDataList (cfg : Cfg) (value : ℚ) : ℚ :=
  if !cfg.listSet || cfg.opts.isEmpty then value
  else
    match cfg.opts with
    | [] => value
    | h :: t => t.foldl (fun prev curr => if |curr - value| < |prev - value| then curr else prev) h

/-- The lookup `sortedValues.find((v) => v >= minAllowed)` from `_normalizeValue`. -/
def tickCeil (cfg : Cfg) (bound : ℚ) : Option ℚ :=
  (sortedVals cfg).find? (fun v => decide (bound ≤ v))

/-- The lookup `[...sortedValues].reverse().find((v) => v <= maxAllowed)` from
`_normalizeValue`. -/
def tickFloor (cfg : Cfg) (bound : ℚ) : Option ℚ :=
  (sortedVals cfg).reverse.find? (fun v => decide (v ≤ bound))

/-- The neighbor access `this._inputs[index - 1]`; JavaScript yields
`undefined` for index `-1`, so index `0` has no previous neighbor. -/
def prevInputAt (inputs : List RangeInput) (index : ℕ) : Option RangeInput :=
  if index = 0 then none else inputs[index - 1]?

/-- Embedding of `_normalizeValue(value, index)` (first version of the source):
optional datalist snap, then the step-between adjustment against the previous
and next input values, then a single final clamp to the intersection of the
component domain with the input element's own min/max attributes. -/
def normalizeValue (cfg : Cfg) (inputs : List RangeInput) (value : ℚ) (index : ℕ) : ℚ :=
  match inputs[index]? with
  | none => value
  | some input =>
    let fv0 := if hasTicks cfg then snapToDataList cfg value else value
    let step := cfg.stepBetween
    let fv1 :=
      match prevInputAt inputs index with
      | none => fv0
      | some prev =>
        let minAllowed := prev.value + step
        if fv0 < minAllowed then
          if hasTicks cfg then (tickCeil cfg minAllowed).getD fv0 else minAllowed
        else fv0
    let fv2 :=
      match inputs[index + 1]? with
      | none => fv1
      | some next =>
        let maxAllowed := next.value - step
        if maxAllowed < fv1 then
          if hasTicks cfg then (tickFloor cfg maxAllowed).getD fv1 else maxAllowed
        else fv1
    let inputMin := input.minAttr.getD cfg.min
    let inputMax := input.maxAttr.getD cfg.max
    let thumbMin := max cfg.min inputMin
    let thumbMax := min cfg.max inputMax
    max thumbMin (min thumbMax fv2)

/-- Embedding of the module-level `shallowEqual` helper. -/
def shallowEqual (arr1 arr2 : List ℚ) : Bool :=
  arr1.length == arr2.length && (arr1.zip arr2).all (fun p => p.1 == p.2)

/-- The two notification classes handled by `_dispatch`. -/
inductive EvClass where
  | input
  | change
deriving DecidableEq, Repr

/-- The `_pendingActivation` record. -/
structure Pending where
  indices : List ℕ
  initialX : ℚ
deriving DecidableEq, Repr

/-- The mutable component state the interaction logic touches. -/
structure WidgetState where
  cfg : Cfg
  inputs : List RangeInput
  values : List ℚ
  prevInput : List ℚ
  prevChange : List ℚ
  activeThumb : Option ℕ
  pending : Option Pending
  containerRect : Option (ℚ × ℚ)
deriving DecidableEq, Repr

/-- The last-emitted snapshot belonging to a notification class. -/
def snapshotOf (s : WidgetState) (cls : EvClass) : List ℚ :=
  match cls with
  | EvClass.input => s.prevInput
  | EvClass.change => s.prevChange

/-- Embedding of `_dispatch(name)`: the Boolean result records whether an
event was actually dispatched. -/
def dispatchW (s : WidgetState) (cls : EvClass) : WidgetState × Bool :=
  match cls with
  | EvClass.change =>
    if shallowEqual s.values s.prevChange then (s, false)
    else ({s with prevChange := s.values}, true)
  | EvClass.input =>
    if shallowEqual s.values s.prevInput then (s, false)
    else ({s with prevInput := s.values}, true)

/-- The array built inside `_updateValues`:
`this._inputs.map((input, index) => this._normalizeValue(Number(input.value), index))`. -/
def updateValues (cfg : Cfg) (inputs : List RangeInput) : List ℚ :=
  inputs.mapIdx (fun i inp => normalizeValue cfg inputs inp.value i)

/-- Embedding of `_updateValues`: the recomputed array replaces `_values`
only when it differs. -/
def applyUpdateValues (s : WidgetState) : WidgetState :=
  let newValues := updateValues s.cfg s.inputs
  if shallowEqual s.values newValues then s else {s with values := newValues}

/-- Embedding of the public accessor `getRangeInput(index)`; `none` models the
`undefined` a JavaScript out-of-range index yields. -/
def getRangeInput (s : WidgetState) (index : ℕ) : Option RangeInput :=
  s.inputs[index]?

/-- Embedding of the public setter `setRangeValue(index, value)`: guarded on
the input existing, writes the normalized value into the input, then reruns
`_updateValues`. -/
def setRangeValue (s : WidgetState) (index : ℕ) (value : ℚ) : WidgetState :=
  match s.inputs[index]? with
  | none => s
  | some inp =>
    let nv := normalizeValue s.cfg s.inputs value index
    applyUpdateValues {s with inputs := s.inputs.set index ⟨nv, inp.minAttr, inp.maxAttr, inp.stepAttr⟩}

/-- The pointer-to-value computation shared by the track-click branch of
`_handleContainerPointerDown` and by `_handlePointerMove`: the position
fraction is clamped to 0..1 before interpolating over the domain. -/
def pointerValue (mn mx left width x : ℚ) : ℚ :=
  let percent := max 0 (min 1 ((x - left) / width))
  mn + percent * (mx - mn)

/-- The `reduce` in the track-click branch selecting the thumb whose current
value is closest to the clicked value (starting accumulator index 0,
replacing only on strictly smaller distance). -/
def closestThumbIndex (values : List ℚ) (v : ℚ) : ℕ :=
  values.enum.foldl
    (fun ci p => if |p.2 - v| < |values.getD ci 0 - v| then p.1 else ci) 0

/-- Embedding of the track-background branch of `_handleContainerPointerDown`.
The measured container rectangle is supplied as `left`/`width`; the returned
Booleans record whether the `input` and `change` dispatches actually fired. -/
def trackClick (s : WidgetState) (button : ℕ) (x left width : ℚ) : WidgetState × Bool × Bool :=
  if button ≠ 0 then (s, false, false)
  else
    let s0 := {s with containerRect := some (left, width)}
    let value := pointerValue s0.cfg.min s0.cfg.max left width x
    if s0.values.isEmpty then (s0, false, false)
    else
      let ti := closestThumbIndex s0.values value
      let s1 := setRangeValue s0 ti value
      let r1 := dispatchW s1 EvClass.input
      let r2 := dispatchW r1.1 EvClass.change
      (r2.1, r1.2, r2.2)

/-- The `reduce` collecting the indices whose value is within the `0.001`
overlap tolerance of the pressed thumb's value. -/
def overlappingIndices (values : List ℚ) (cur : ℚ) : List ℕ :=
  (values.enum.filter (fun p => decide (|p.2 - cur| < 1 / 1000))).map Prod.fst

/-- Embedding of the thumb branch of `_handleContainerPointerDown`: with more
than one overlapping thumb a pending activation is recorded, otherwise the
pressed thumb becomes active immediately. -/
def handleThumbPointerDown (s : WidgetState) (button : ℕ) (thumbIndex : ℕ) (x left width : ℚ) :
    WidgetState :=
  if button ≠ 0 then s
  else
    let s0 := {s with containerRect := some (left, width)}
    let cur := s0.values.getD thumbIndex 0
    let ov := overlappingIndices s0.values cur
    if 1 < ov.length then {s0 with pending := some ⟨ov, x⟩, activeThumb := none}
    else {s0 with activeThumb := some thumbIndex}

/-- `Math.min(...indices)` for a non-empty index list. -/
def jsMinNat : List ℕ → ℕ
  | [] => 0
  | h :: t => t.foldl min h

/-- `Math.max(...indices)` for a non-empty index list. -/
def jsMaxNat : List ℕ → ℕ
  | [] => 0
  | h :: t => t.foldl max h

/-- Embedding of `_handlePointerMove`: first the pending-overlap resolution
(threshold strictly above 2 pixels of horizontal displacement), then the drag
update through `setRangeValue` followed by an `input` dispatch.  The Boolean
records whether the `input` event fired. -/
def handlePointerMove (s : WidgetState) (x : ℚ) : WidgetState × Bool :=
  let s0 :=
    match s.pending with
    | some p =>
      let dx := x - p.initialX
      if 2 < |dx| then
        {s with
          activeThumb := some (if 0 < dx then jsMaxNat p.indices else jsMinNat p.indices),
          pending := none}
      else s
    | none => s
  match s0.activeThumb, s0.containerRect with
  | some i, some r =>
    let value := pointerValue s0.cfg.min s0.cfg.max r.1 r.2 x
    let s1 := setRangeValue s0 i value
    dispatchW s1 EvClass.input
  | _, _ => (s0, false)

/-- The keys `_handleKeyDown` inspects. -/
inductive Key where
  | arrowLeft
  | arrowDown
  | arrowRight
  | arrowUp
  | homeK
  | endK
  | other (name : String)
deriving DecidableEq, Repr

/-- The keys for which the handler calls `preventDefault` and commits a value. -/
def navKey : Key → Bool
  | Key.arrowLeft | Key.arrowDown | Key.arrowRight | Key.arrowUp | Key.homeK | Key.endK => true
  | Key.other _ => false

/-- The expression `Number(input.step) || 1`. -/
def jsStep (inp : RangeInput) : ℚ :=
  match inp.stepAttr with
  | none => 1
  | some q => if q = 0 then 1 else q

/-- The recursion behind `Array.prototype.indexOf`: position of the first
occurrence, if any. -/
def idxOf? (v : ℚ) : List ℚ → Option ℕ
  | [] => none
  | h :: t => if h = v then some 0 else (idxOf? v t).map (· + 1)

/-- `sortedValues.indexOf(newValue)` with the JavaScript `-1` convention. -/
def jsIndexOf (l : List ℚ) (v : ℚ) : ℤ :=
  match idxOf? v l with
  | none => -1
  | some n => n

/-- The datalist stepping computation of `_handleKeyDown`:
`sortedValues[Math.max(0, currentIndex - 1)]` for the left/down keys and
`sortedValues[Math.min(sortedValues.length - 1, currentIndex + 1)]` for the
right/up keys. -/
def datalistArrowValue (cfg : Cfg) (cur : ℚ) (goLeft : Bool) : ℚ :=
  let sv := sortedVals cfg
  let ci := jsIndexOf sv cur
  if goLeft then sv.getD (max 0 (ci - 1)).toNat 0
  else sv.getD (min ((sv.length : ℤ) - 1) (ci + 1)).toNat 0

/-- The common tail of every accepted keyboard adjustment: write the candidate
through `setRangeValue`, then dispatch `input` and `change`. -/
def keyboardCommit (s : WidgetState) (index : ℕ) (v : ℚ) : WidgetState × Bool × Bool :=
  let s1 := setRangeValue s index v
  let r1 := dispatchW s1 EvClass.input
  let r2 := dispatchW r1.1 EvClass.change
  (r2.1, r1.2, r2.2)

/-- The candidate value `_handleKeyDown` computes before writing: arrow steps
(by the input's step, or through the sorted datalist), then the Home/End
overrides. -/
def keyCandidate (cfg : Cfg) (inp : RangeInput) (key : Key) : ℚ :=
  let step := jsStep inp
  let cur := inp.value
  let v1 :=
    if hasTicks cfg then
      if key = Key.arrowLeft ∨ key = Key.arrowDown then datalistArrowValue cfg cur true
      else if key = Key.arrowRight ∨ key = Key.arrowUp then datalistArrowValue cfg cur false
      else cur
    else
      if key = Key.arrowLeft ∨ key = Key.arrowDown then cur - step
      else if key = Key.arrowRight ∨ key = Key.arrowUp then cur + step
      else cur
  if key = Key.homeK then cfg.min else if key = Key.endK then cfg.max else v1

/-- Embedding of `_handleKeyDown(e, index)`: `none` models the early returns
that leave the event unconsumed (missing input, or a key outside the handled
set); `some` carries the new state and the two dispatch outcomes. -/
def handleKeyDown (s : WidgetState) (index : ℕ) (key : Key) : Option (WidgetState × Bool × Bool) :=
  match s.inputs[index]? with
  | none => none
  | some inp =>
    if navKey key then some (keyboardCommit s index (keyCandidate s.cfg inp key)) else none

/-- Minimum value of a list of rationals, `none` on the empty list. -/
def listMinQ : List ℚ → Option ℚ
  | [] => none
  | h :: t => some (t.foldl min h)

/-- Maximum value of a list of rationals, `none` on the empty list. -/
def listMaxQ : List ℚ → Option ℚ
  | [] => none
  | h :: t => some (t.foldl max h)

/-- Nearest-tick reduction exactly as the claims describe step 1 of the
reference algorithm (first tick of minimal absolute distance wins). -/
def nearestTick (ticks : List ℚ) (v : ℚ) : ℚ :=
  match ticks with
  | [] => v
  | h :: t => t.foldl (fun prev curr => if |curr - v| < |prev - v| then curr else prev) h

/-- Modelled from the words of claim C2: the five-step reference algorithm
(snap, clamp, previous-neighbor adjustment, next-neighbor adjustment,
re-clamp) over a state of domain bounds, step, tick set and neighbor values. -/
def normalizeClaimC2 (mn mx step : ℚ) (ticks : List ℚ) (prev? next? : Option ℚ) (v : ℚ) : ℚ :=
  let s1 := nearestTick ticks v
  let s2 := max mn (min mx s1)
  let s3 :=
    match prev? with
    | none => s2
    | some pv =>
      let minAllowed := pv + step
      if s2 < minAllowed then
        if ticks.isEmpty then minAllowed
        else (listMinQ (ticks.filter (fun t => decide (minAllowed ≤ t)))).getD s2
      else s2
  let s4 :=
    match next? with
    | none => s3
    | some nv =>
      let maxAllowed := nv - step
      if maxAllowed < s3 then
        if ticks.isEmpty then maxAllowed
        else (listMaxQ (ticks.filter (fun t => decide (t ≤ maxAllowed)))).getD s3
      else s3
  max mn (min mx s4)

/-- The reference algorithm amended to what the code computes: snap, then the
neighbor adjustments on the unclamped value (the smallest tick above the
bound, respectively the largest tick below it), then one single clamp at the
end, to the intersection of the domain with the input element's own min/max
attributes. -/
def normalizeAmended (cfg : Cfg) (inputs : List RangeInput) (v : ℚ) (i : ℕ) : ℚ :=
  match inputs[i]? with
  | none => v
  | some inp =>
    let s1 := if hasTicks cfg then nearestTick cfg.opts v else v
    let s2 :=
      match prevInputAt inputs i with
      | none => s1
      | some prev =>
        let bound := prev.value + cfg.stepBetween
        if s1 < bound then
          if hasTicks cfg then (listMinQ (cfg.opts.filter (fun t => decide (bound ≤ t)))).getD s1
          else bound
        else s1
    let s3 :=
      match inputs[i + 1]? with
      | none => s2
      | some next =>
        let bound := next.value - cfg.stepBetween
        if bound < s2 then
          if hasTicks cfg then (listMaxQ (cfg.opts.filter (fun t => decide (t ≤ bound)))).getD s2
          else bound
        else s2
    let lo := max cfg.min (inp.minAttr.getD cfg.min)
    let hi := min cfg.max (inp.maxAttr.getD cfg.max)
    max lo (min hi s3)

/-- Effective lower clamp bound used by `_normalizeValue` at an index. -/
def clampLoAt (cfg : Cfg) (inputs : List RangeInput) (i : ℕ) : ℚ :=
  match inputs[i]? with
  | none => cfg.min
  | some inp => max cfg.min (inp.minAttr.getD cfg.min)

/-- Effective upper clamp bound used by `_normalizeValue` at an index. -/
def clampHiAt (cfg : Cfg) (inputs : List RangeInput) (i : ℕ) : ℚ :=
  match inputs[i]? with
  | none => cfg.max
  | some inp => min cfg.max (inp.maxAttr.getD cfg.max)

/-- The step function of the closest-thumb `reduce`, named for the proofs. -/
def closestStep (values : List ℚ) (v : ℚ) : ℕ → ℕ × ℚ → ℕ :=
  fun ci p => if |p.2 - v| < |values.getD ci 0 - v| then p.1 else ci

/-- The previous-neighbor stage of `_normalizeValue`, parameterized by the
previous input's value when one exists. -/
def adjPrev (cfg : Cfg) (pv? : Option ℚ) (x : ℚ) : ℚ :=
  match pv? with
  | none => x
  | some pv =>
    if x < pv + cfg.stepBetween then
      if hasTicks cfg then (tickCeil cfg (pv + cfg.stepBetween)).getD x
      else pv + cfg.stepBetween
    else x

/-- The next-neighbor stage of `_normalizeValue`, parameterized by the next
input's value when one exists. -/
def adjNext (cfg : Cfg) (nv? : Option ℚ) (x : ℚ) : ℚ :=
  match nv? with
  | none => x
  | some nv =>
    if nv - cfg.stepBetween < x then
      if hasTicks cfg then (tickFloor cfg (nv - cfg.stepBetween)).getD x
      else nv - cfg.stepBetween
    else x

theorem shallowEqual_iff (a b : List ℚ) : shallowEqual a b = true ↔ a = b := by
  induction a generalizing b with
  | nil =>
    cases b <;> simp [shallowEqual]
  | cons h t ih =>
    cases b with
    | nil => simp [shallowEqual]
    | cons h' t' =>
      have ht := ih t'
      simp only [shallowEqual, List.zip_cons_cons, List.all_cons, List.length_cons,
        Bool.and_eq_true, beq_iff_eq, List.cons.injEq] at *
      constructor
      · rintro ⟨hlen, hh, hall⟩
        exact ⟨hh, ht.1 ⟨by omega, hall⟩⟩
      · rintro ⟨hh, htt⟩
        subst hh htt
        refine ⟨rfl, rfl, ?_⟩
        exact (ht.2 rfl).2

theorem shallowEqual_self (a : List ℚ) : shallowEqual a a = true :=
  (shallowEqual_iff a a).2 rfl

theorem foldl_min_mem {α : Type} [LinearOrder α] (t : List α) (h : α) :
    t.foldl min h ∈ h :: t := by
  induction t generalizing h with
  | nil => simp
  | cons a t ih =>
    have := ih (min h a)
    rcases List.mem_cons.1 this with hc | hc
    · rcases min_choice h a with hm | hm <;> rw [List.foldl_cons, hc, hm] <;> simp
    · simp [List.foldl_cons, List.mem_cons.2 (Or.inr (List.mem_cons.2 (Or.inr hc)))]

theorem foldl_min_le {α : Type} [LinearOrder α] (t : List α) (h : α) :
    ∀ x ∈ h :: t, t.foldl min h ≤ x := by
  induction t generalizing h with
  | nil => intro x hx; simp at hx; simp [hx]
  | cons a t ih =>
    intro x hx
    have hbase : t.foldl min (min h a) ≤ min h a := ih (min h a) (min h a) (by simp)
    rcases List.mem_cons.1 hx with rfl | hx
    · exact le_trans hbase (min_le_left _ _)
    rcases List.mem_cons.1 hx with rfl | hx
    · exact le_trans hbase (min_le_right _ _)
    · exact ih (min h a) x (List.mem_cons.2 (Or.inr hx))

theorem foldl_max_mem {α : Type} [LinearOrder α] (t : List α) (h : α) :
    t.foldl max h ∈ h :: t := by
  induction t generalizing h with
  | nil => simp
  | cons a t ih =>
    have := ih (max h a)
    rcases List.mem_cons.1 this with hc | hc
    · rcases max_choice h a with hm | hm <;> rw [List.foldl_cons, hc, hm] <;> simp
    · simp [List.foldl_cons, List.mem_cons.2 (Or.inr (List.mem_cons.2 (Or.inr hc)))]

theorem le_foldl_max {α : Type} [LinearOrder α] (t : List α) (h : α) :
    ∀ x ∈ h :: t, x ≤ t.foldl max h := by
  induction t generalizing h with
  | nil => intro x hx; simp at hx; simp [hx]
  | cons a t ih =>
    intro x hx
    have hbase : max h a ≤ t.foldl max (max h a) := ih (max h a) (max h a) (by simp)
    rcases List.mem_cons.1 hx with rfl | hx
    · exact le_trans (le_max_left _ _) hbase
    rcases List.mem_cons.1 hx with rfl | hx
    · exact le_trans (le_max_right _ _) hbase
    · exact ih (max h a) x (List.mem_cons.2 (Or.inr hx))

theorem listMinQ_spec {l : List ℚ} {m : ℚ} (hm : listMinQ l = some m) :
    m ∈ l ∧ ∀ x ∈ l, m ≤ x := by
  cases l with
  | nil => simp [listMinQ] at hm
  | cons h t =>
    simp only [listMinQ, Option.some.injEq] at hm
    subst hm
    exact ⟨foldl_min_mem t h, foldl_min_le t h⟩

theorem listMinQ_eq_none {l : List ℚ} : listMinQ l = none ↔ l = [] := by
  cases l <;> simp [listMinQ]

theorem listMinQ_eq_some_of {l : List ℚ} {m : ℚ} (hmem : m ∈ l) (hlb : ∀ x ∈ l, m ≤ x) :
    listMinQ l = some m := by
  cases l with
  | nil => simp at hmem
  | cons h t =>
    obtain ⟨hmem', hlb'⟩ := listMinQ_spec (l := h :: t) (m := t.foldl min h) rfl
    simp only [listMinQ, Option.some.injEq]
    exact le_antisymm (hlb' _ hmem) (hlb _ hmem')

theorem listMaxQ_spec {l : List ℚ} {m : ℚ} (hm : listMaxQ l = some m) :
    m ∈ l ∧ ∀ x ∈ l, x ≤ m := by
  cases l with
  | nil => simp [listMaxQ] at hm
  | cons h t =>
    simp only [listMaxQ, Option.some.injEq] at hm
    subst hm
    exact ⟨foldl_max_mem t h, le_foldl_max t h⟩

theorem listMaxQ_eq_none {l : List ℚ} : listMaxQ l = none ↔ l = [] := by
  cases l <;> simp [listMaxQ]

theorem listMaxQ_eq_some_of {l : List ℚ} {m : ℚ} (hmem : m ∈ l) (hub : ∀ x ∈ l, x ≤ m) :
    listMaxQ l = some m := by
  cases l with
  | nil => simp at hmem
  | cons h t =>
    obtain ⟨hmem', hub'⟩ := listMaxQ_spec (l := h :: t) (m := t.foldl max h) rfl
    simp only [listMaxQ, Option.some.injEq]
    exact le_antisymm (hub _ hmem') (hub' _ hmem)

theorem foldlNearest_mem (v : ℚ) (t : List ℚ) (h : ℚ) :
    t.foldl (fun prev curr => if |curr - v| < |prev - v| then curr else prev) h ∈ h :: t := by
  induction t generalizing h with
  | nil => simp
  | cons a t ih =>
    rw [List.foldl_cons]
    have hrec := ih (if |a - v| < |h - v| then a else h)
    rcases List.mem_cons.1 hrec with hc | hc
    · rw [hc]
      split <;> simp
    · exact List.mem_cons.2 (Or.inr (List.mem_cons.2 (Or.inr hc)))

theorem foldlNearest_dist_le (v : ℚ) (t : List ℚ) (h : ℚ) :
    ∀ x ∈ h :: t,
      |t.foldl (fun prev curr => if |curr - v| < |prev - v| then curr else prev) h - v| ≤
        |x - v| := by
  induction t generalizing h with
  | nil =>
    intro x hx
    simp only [List.mem_singleton] at hx
    simp [hx]
  | cons a t ih =>
    intro x hx
    rw [List.foldl_cons]
    have hstep : |(if |a - v| < |h - v| then a else h) - v| ≤ |h - v| ∧
        |(if |a - v| < |h - v| then a else h) - v| ≤ |a - v| := by
      split_ifs with hcmp
      · exact ⟨le_of_lt hcmp, le_refl _⟩
      · exact ⟨le_refl _, not_lt.1 hcmp⟩
    rcases List.mem_cons.1 hx with rfl | hx
    · exact le_trans (ih _ _ (List.mem_cons_self _ _)) hstep.1
    rcases List.mem_cons.1 hx with rfl | hx
    · exact le_trans (ih _ _ (List.mem_cons_self _ _)) hstep.2
    · exact ih _ x (List.mem_cons.2 (Or.inr hx))

theorem nearestTick_mem {l : List ℚ} (hne : l ≠ []) (v : ℚ) : nearestTick l v ∈ l := by
  cases l with
  | nil => exact absurd rfl hne
  | cons h t => exact foldlNearest_mem v t h

theorem nearestTick_dist_le {l : List ℚ} (v : ℚ) :
    ∀ x ∈ l, |nearestTick l v - v| ≤ |x - v| := by
  cases l with
  | nil => simp
  | cons h t => exact foldlNearest_dist_le v t h

theorem nearestTick_self {l : List ℚ} {t : ℚ} (ht : t ∈ l) : nearestTick l t = t := by
  have hd := nearestTick_dist_le (l := l) t t ht
  simp only [sub_self, abs_zero] at hd
  have : |nearestTick l t - t| = 0 := le_antisymm hd (abs_nonneg _)
  have := abs_eq_zero.1 this
  linarith

theorem snap_eq_nearest {cfg : Cfg} (h : hasTicks cfg = true) (v : ℚ) :
    snapToDataList cfg v = nearestTick cfg.opts v := by
  simp only [hasTicks, Bool.and_eq_true, Bool.not_eq_true', List.isEmpty_eq_false] at h
  obtain ⟨hl, ho⟩ := h
  cases hopts : cfg.opts with
  | nil => exact absurd hopts (by simpa [List.isEmpty_iff] using ho)
  | cons a t =>
    simp [snapToDataList, nearestTick, hl, hopts]

theorem mem_sortedVals {cfg : Cfg} {x : ℚ} : x ∈ sortedVals cfg ↔ x ∈ cfg.opts :=
  (List.perm_insertionSort (· ≤ ·) cfg.opts).mem_iff

theorem sorted_sortedVals (cfg : Cfg) : List.Sorted (· ≤ ·) (sortedVals cfg) :=
  List.sorted_insertionSort (· ≤ ·) cfg.opts

theorem sortedVals_ne_nil {cfg : Cfg} (h : cfg.opts ≠ []) : sortedVals cfg ≠ [] := by
  intro hs
  have hperm := List.perm_insertionSort (· ≤ ·) cfg.opts
  rw [show List.insertionSort (· ≤ ·) cfg.opts = sortedVals cfg from rfl, hs] at hperm
  exact h hperm.symm.eq_nil

theorem find_ge_min {a : ℚ} :
    ∀ (l : List ℚ), List.Sorted (· ≤ ·) l →
      ∀ {t : ℚ}, l.find? (fun v => decide (a ≤ v)) = some t → ∀ x ∈ l, a ≤ x → t ≤ x := by
  intro l
  induction l with
  | nil => intro _ t hf; simp at hf
  | cons h tl ih =>
    intro hs t hf
    rw [List.sorted_cons] at hs
    by_cases hah : a ≤ h
    · rw [List.find?_cons_of_pos _ (by simpa using hah)] at hf
      obtain rfl : h = t := by simpa using hf
      intro x hx _
      rcases List.mem_cons.1 hx with rfl | hx
      · exact le_refl x
      · exact hs.1 x hx
    · rw [List.find?_cons_of_neg _ (by simpa using hah)] at hf
      intro x hx hax
      rcases List.mem_cons.1 hx with rfl | hx
      · exact absurd hax hah
      · exact ih hs.2 hf x hx hax

theorem find_le_max_rev {b : ℚ} :
    ∀ (l : List ℚ), List.Sorted (· ≤ ·) l →
      ∀ {t : ℚ}, l.reverse.find? (fun v => decide (v ≤ b)) = some t → ∀ x ∈ l, x ≤ b → x ≤ t := by
  intro l
  induction l with
  | nil => intro _ t hf; simp at hf
  | cons h tl ih =>
    intro hs t hf
    rw [List.sorted_cons] at hs
    rw [List.reverse_cons, List.find?_append] at hf
    cases hrec : tl.reverse.find? (fun v => decide (v ≤ b)) with
    | some r =>
      rw [hrec] at hf
      have hrt : r = t := by simpa using hf
      have hrmem : r ∈ tl := by
        have := List.mem_of_find?_eq_some hrec
        simpa using this
      intro x hx hxb
      rcases List.mem_cons.1 hx with rfl | hx
      · exact hrt ▸ hs.1 r hrmem
      · exact hrt ▸ ih hs.2 hrec x hx hxb
    | none =>
      rw [hrec] at hf
      simp only [Option.none_or] at hf
      have hnone : ∀ y ∈ tl, ¬ y ≤ b := by
        intro y hy
        have := List.find?_eq_none.1 hrec y (by simpa using hy)
        simpa using this
      by_cases hhb : h ≤ b
      · rw [List.find?_cons_of_pos _ (by simpa using hhb)] at hf
        obtain rfl : h = t := by simpa using hf
        intro x hx hxb
        rcases List.mem_cons.1 hx with rfl | hx
        · exact le_refl x
        · exact absurd hxb (hnone x hx)
      · rw [List.find?_cons_of_neg _ (by simpa using hhb)] at hf
        simp at hf

theorem tickCeil_some {cfg : Cfg} {a t : ℚ} (hf : tickCeil cfg a = some t) :
    a ≤ t ∧ t ∈ cfg.opts ∧ ∀ x ∈ cfg.opts, a ≤ x → t ≤ x := by
  refine ⟨by simpa using List.find?_some hf, ?_, ?_⟩
  · exact mem_sortedVals.1 (List.mem_of_find?_eq_some hf)
  · intro x hx hax
    exact find_ge_min _ (sorted_sortedVals cfg) hf x (mem_sortedVals.2 hx) hax

theorem tickCeil_none {cfg : Cfg} {a : ℚ} (hf : tickCeil cfg a = none) :
    ∀ x ∈ cfg.opts, x < a := by
  intro x hx
  have := List.find?_eq_none.1 hf x (mem_sortedVals.2 hx)
  simpa using this

theorem tickFloor_some {cfg : Cfg} {b t : ℚ} (hf : tickFloor cfg b = some t) :
    t ≤ b ∧ t ∈ cfg.opts ∧ ∀ x ∈ cfg.opts, x ≤ b → x ≤ t := by
  refine ⟨by simpa using List.find?_some hf, ?_, ?_⟩
  · have := List.mem_of_find?_eq_some hf
    rw [List.mem_reverse] at this
    exact mem_sortedVals.1 this
  · intro x hx hxb
    exact find_le_max_rev _ (sorted_sortedVals cfg) hf x (mem_sortedVals.2 hx) hxb

theorem tickFloor_none {cfg : Cfg} {b : ℚ} (hf : tickFloor cfg b = none) :
    ∀ x ∈ cfg.opts, b < x := by
  intro x hx
  have := List.find?_eq_none.1 hf x (by rw [List.mem_reverse]; exact mem_sortedVals.2 hx)
  simpa using this

theorem tickCeil_eq_listMin (cfg : Cfg) (a : ℚ) :
    tickCeil cfg a = listMinQ (cfg.opts.filter (fun t => decide (a ≤ t))) := by
  cases hf : tickCeil cfg a with
  | some t =>
    obtain ⟨hat, hmem, hmin⟩ := tickCeil_some hf
    refine (listMinQ_eq_some_of ?_ ?_).symm
    · exact List.mem_filter.2 ⟨hmem, by simpa using hat⟩
    · intro x hx
      obtain ⟨hxm, hxa⟩ := List.mem_filter.1 hx
      exact hmin x hxm (by simpa using hxa)
  | none =>
    have := tickCeil_none hf
    rw [eq_comm, listMinQ_eq_none, List.filter_eq_nil_iff]
    intro x hx
    simpa using not_le.2 (this x hx)

theorem hasTicks_iff {cfg : Cfg} : hasTicks cfg = true ↔ cfg.listSet = true ∧ cfg.opts ≠ [] := by
  rcases cfg with ⟨mn, mx, st, ls, opts⟩
  cases ls <;> cases opts <;> simp [hasTicks]

theorem snap_mem {cfg : Cfg} (h : hasTicks cfg = true) (v : ℚ) :
    snapToDataList cfg v ∈ cfg.opts := by
  rw [snap_eq_nearest h]
  exact nearestTick_mem (hasTicks_iff.1 h).2 v

theorem snap_self {cfg : Cfg} (h : hasTicks cfg = true) {t : ℚ} (ht : t ∈ cfg.opts) :
    snapToDataList cfg t = t := by
  rw [snap_eq_nearest h]
  exact nearestTick_self ht

theorem idxOf?_eq_none {v : ℚ} {l : List ℚ} : idxOf? v l = none ↔ v ∉ l := by
  induction l with
  | nil => simp [idxOf?]
  | cons h t ih =>
    by_cases hv : h = v
    · simp [idxOf?, hv]
    · simp [idxOf?, hv, Option.map_eq_none', ih, Ne.symm hv]

theorem idxOf?_some {v : ℚ} :
    ∀ {l : List ℚ} {n : ℕ}, idxOf? v l = some n → n < l.length ∧ l[n]? = some v := by
  intro l
  induction l with
  | nil => intro n h; simp [idxOf?] at h
  | cons h t ih =>
    intro n hn
    by_cases hv : h = v
    · simp only [idxOf?, if_pos hv] at hn
      obtain rfl : (0 : ℕ) = n := by simpa using hn
      simpa using hv
    · simp only [idxOf?, if_neg hv] at hn
      cases hrec : idxOf? v t with
      | none => rw [hrec] at hn; simp at hn
      | some m =>
        rw [hrec] at hn
        obtain rfl : m + 1 = n := by simpa using hn
        obtain ⟨hlt, hget⟩ := ih hrec
        constructor
        · simpa using Nat.succ_lt_succ hlt
        · simpa using hget

theorem tickFloor_eq_listMax (cfg : Cfg) (b : ℚ) :
    tickFloor cfg b = listMaxQ (cfg.opts.filter (fun t => decide (t ≤ b))) := by
  cases hf : tickFloor cfg b with
  | some t =>
    obtain ⟨htb, hmem, hmax⟩ := tickFloor_some hf
    refine (listMaxQ_eq_some_of ?_ ?_).symm
    · exact List.mem_filter.2 ⟨hmem, by simpa using htb⟩
    · intro x hx
      obtain ⟨hxm, hxb⟩ := List.mem_filter.1 hx
      exact hmax x hxm (by simpa using hxb)
  | none =>
    have := tickFloor_none hf
    rw [eq_comm, listMaxQ_eq_none, List.filter_eq_nil_iff]
    intro x hx
    simpa using not_le.2 (this x hx)

/-- Claim C1, counterexample: with domain `[0, 100]` and a backing input whose
own `min` attribute is `200`, the final clamp of `_normalizeValue` lands on
`200`, outside `[domain.min, domain.max]`, even though `min <= max` holds. -/
theorem normalize_escapes_domain_cx :
    (0 : ℚ) ≤ 100 ∧
    normalizeValue ⟨0, 100, 0, false, []⟩ [⟨10, some 200, none, none⟩] 10 0 = 200 ∧
    ¬ normalizeValue ⟨0, 100, 0, false, []⟩ [⟨10, some 200, none, none⟩] 10 0 ≤ 100 := by
  refine ⟨by norm_num, by decide, by decide⟩

/-- Claim C1 (amended): provided the backing input's own `min` attribute, when
present, does not exceed `domain.max`, every normalize result lies within
`[domain.min, domain.max]`; consequently every element of the stored value
sequence recomputed by `_updateValues` lies within the domain. -/
theorem normalize_within_domain :
    (∀ (cfg : Cfg) (inputs : List RangeInput) (i : ℕ) (v : ℚ) (inp : RangeInput),
        inputs[i]? = some inp → cfg.min ≤ cfg.max →
        (∀ m ∈ inp.minAttr, m ≤ cfg.max) →
        cfg.min ≤ normalizeValue cfg inputs v i ∧ normalizeValue cfg inputs v i ≤ cfg.max) ∧
    (∀ (cfg : Cfg) (inputs : List RangeInput),
        cfg.min ≤ cfg.max →
        (∀ inp ∈ inputs, ∀ m ∈ inp.minAttr, m ≤ cfg.max) →
        ∀ x ∈ updateValues cfg inputs, cfg.min ≤ x ∧ x ≤ cfg.max) := by
  have h1 : ∀ (cfg : Cfg) (inputs : List RangeInput) (i : ℕ) (v : ℚ) (inp : RangeInput),
      inputs[i]? = some inp → cfg.min ≤ cfg.max →
      (∀ m ∈ inp.minAttr, m ≤ cfg.max) →
      cfg.min ≤ normalizeValue cfg inputs v i ∧ normalizeValue cfg inputs v i ≤ cfg.max := by
    intro cfg inputs i v inp hin hmm hattr
    have hloup : max cfg.min (inp.minAttr.getD cfg.min) ≤ cfg.max := by
      apply max_le hmm
      cases hm : inp.minAttr with
      | none => simpa using hmm
      | some m => simpa using hattr m (by simp [hm])
    simp only [normalizeValue, hin]
    constructor
    · exact le_trans (le_max_left _ _) (le_max_left _ _)
    · exact max_le hloup (le_trans (min_le_left _ _) (min_le_left _ _))
  refine ⟨h1, ?_⟩
  intro cfg inputs hmm hattr x hx
  obtain ⟨j, hj, hget⟩ := List.mem_iff_getElem.1 hx
  have hjlen : j < inputs.length := by simpa [updateValues] using hj
  have hx' : x = normalizeValue cfg inputs inputs[j].value j := by
    rw [← hget]
    simp [updateValues, List.getElem_mapIdx]
  rw [hx']
  exact h1 cfg inputs j inputs[j].value inputs[j] (List.getElem?_eq_getElem hjlen) hmm
    (hattr inputs[j] (List.getElem_mem hjlen))

/-- Claim C1, witness of the amended theorem at a concrete state. -/
theorem normalize_within_domain_witness :
    (0 : ℚ) ≤ normalizeValue ⟨0, 100, 0, false, []⟩ [⟨20, none, none, none⟩] 150 0 ∧
    normalizeValue ⟨0, 100, 0, false, []⟩ [⟨20, none, none, none⟩] 150 0 ≤ 100 :=
  normalize_within_domain.1 ⟨0, 100, 0, false, []⟩ [⟨20, none, none, none⟩] 0 150
    ⟨20, none, none, none⟩ rfl (by norm_num) (by simp)

/-- Claim C2, counterexample: with ticks `[0, 50, 200]`, domain `[0, 100]`,
step 0 and a next neighbor at `180`, the five-step reference algorithm yields
`100` while `_normalizeValue` yields `50` (the code never clamps before the
neighbor adjustments, so the snapped value `200` still triggers the
next-neighbor tick lookup). -/
theorem normalize_five_step_cx :
    normalizeClaimC2 0 100 0 [0, 50, 200] none (some 180) 300 = 100 ∧
    normalizeValue ⟨0, 100, 0, true, [0, 50, 200]⟩
      [⟨0, none, none, none⟩, ⟨180, none, none, none⟩] 300 0 = 50 ∧
    (100 : ℚ) ≠ 50 := by
  refine ⟨?_, ?_, by norm_num⟩
  · norm_num [normalizeClaimC2, nearestTick, listMinQ, listMaxQ, List.foldl]
  · norm_num [normalizeValue, hasTicks, snapToDataList, prevInputAt, tickCeil, tickFloor,
      sortedVals, List.insertionSort, List.orderedInsert, List.foldl, List.find?]

/-- Claim C2 (amended): `_normalizeValue` computes snap, then the
previous-neighbor adjustment (to the bound, or to the smallest tick at or
above it), then the next-neighbor adjustment (to the bound, or to the largest
tick at or below it), both on the unclamped value, and clamps exactly once at
the end, to the intersection of the domain with the input's own min/max
attributes. -/
theorem normalize_eq_amended_pipeline :
    ∀ (cfg : Cfg) (inputs : List RangeInput) (v : ℚ) (i : ℕ),
      normalizeValue cfg inputs v i = normalizeAmended cfg inputs v i := by
  intro cfg inputs v i
  unfold normalizeValue normalizeAmended
  cases hin : inputs[i]? with
  | none => rfl
  | some inp =>
    have hsnap : (if hasTicks cfg then snapToDataList cfg v else v) =
        (if hasTicks cfg then nearestTick cfg.opts v else v) := by
      by_cases h : hasTicks cfg <;> simp [h, snap_eq_nearest]
    simp only [hsnap, tickCeil_eq_listMin, tickFloor_eq_listMax]

/-- Claim C8: out-of-range indices on the public accessors are harmless:
`getRangeInput` yields no input and `setRangeValue` leaves the whole widget
state unchanged. -/
theorem out_of_range_accessors :
    ∀ (s : WidgetState) (i : ℕ) (v : ℚ), s.inputs.length ≤ i →
      getRangeInput s i = none ∧ setRangeValue s i v = s := by
  intro s i v h
  have hnone : s.inputs[i]? = none := List.getElem?_eq_none h
  exact ⟨hnone, by simp only [setRangeValue, hnone]⟩

/-- Claim C8, witness at a concrete out-of-range index. -/
theorem out_of_range_accessors_witness :
    getRangeInput ⟨⟨0, 100, 0, false, []⟩, [], [], [], [], none, none, none⟩ 3 = none ∧
    setRangeValue ⟨⟨0, 100, 0, false, []⟩, [], [], [], [], none, none, none⟩ 3 7 =
      ⟨⟨0, 100, 0, false, []⟩, [], [], [], [], none, none, none⟩ :=
  out_of_range_accessors ⟨⟨0, 100, 0, false, []⟩, [], [], [], [], none, none, none⟩ 3 7
    (by decide)

/-- Claim C9: the pointer-to-value computation clamps the position fraction
into 0..1 before interpolating, so whenever `min <= max` the candidate value
already lies within the domain. -/
theorem pointer_value_in_domain :
    ∀ (mn mx left width x : ℚ), mn ≤ mx →
      mn ≤ pointerValue mn mx left width x ∧ pointerValue mn mx left width x ≤ mx := by
  intro mn mx left width x h
  have hp0 : (0 : ℚ) ≤ max 0 (min 1 ((x - left) / width)) := le_max_left _ _
  have hp1 : max 0 (min 1 ((x - left) / width)) ≤ 1 :=
    max_le zero_le_one (min_le_left _ _)
  simp only [pointerValue]
  constructor
  · nlinarith [mul_nonneg hp0 (sub_nonneg.2 h)]
  · nlinarith [mul_le_mul_of_nonneg_right hp1 (sub_nonneg.2 h)]

/-- Claim C9, witness with the pointer far beyond the right edge of the track. -/
theorem pointer_value_in_domain_witness :
    (0 : ℚ) ≤ pointerValue 0 100 0 100 150 ∧ pointerValue 0 100 0 100 150 ≤ 100 :=
  pointer_value_in_domain 0 100 0 100 150 (by norm_num)

/-- Claim C10: when a discrete domain is active and the current value is not a
tick value, `indexOf` yields `-1`, so both arrow directions index entry 0 of
the sorted tick list: each arrow key produces the smallest tick value. -/
theorem offtick_arrows_smallest_tick :
    ∀ (cfg : Cfg) (cur : ℚ), hasTicks cfg = true → cur ∉ cfg.opts →
      datalistArrowValue cfg cur true = (sortedVals cfg).getD 0 0 ∧
      datalistArrowValue cfg cur false = (sortedVals cfg).getD 0 0 ∧
      ∀ t ∈ cfg.opts, (sortedVals cfg).getD 0 0 ≤ t := by
  intro cfg cur hT hcur
  have hopts : cfg.opts ≠ [] := (hasTicks_iff.1 hT).2
  have hsv : sortedVals cfg ≠ [] := sortedVals_ne_nil hopts
  have hlen : 1 ≤ (sortedVals cfg).length := List.length_pos.2 hsv
  have hnm : cur ∉ sortedVals cfg := fun hc => hcur (mem_sortedVals.1 hc)
  have hidx : jsIndexOf (sortedVals cfg) cur = -1 := by
    simp [jsIndexOf, idxOf?_eq_none.2 hnm]
  have hleft : datalistArrowValue cfg cur true = (sortedVals cfg).getD 0 0 := by
    have hmax : (max 0 (-1 - 1 : ℤ)) = 0 := by decide
    simp [datalistArrowValue, hidx, hmax]
  have hright : datalistArrowValue cfg cur false = (sortedVals cfg).getD 0 0 := by
    have hmin : min ((sortedVals cfg).length - 1 : ℤ) 0 = 0 := by
      have : (1 : ℤ) ≤ (sortedVals cfg).length := by exact_mod_cast hlen
      omega
    simp [datalistArrowValue, hidx, hmin]
  refine ⟨hleft, hright, ?_⟩
  intro t ht
  obtain ⟨h0, tl, hcons⟩ : ∃ h0 tl, sortedVals cfg = h0 :: tl := by
    cases hc : sortedVals cfg with
    | nil => exact absurd hc hsv
    | cons a b => exact ⟨a, b, rfl⟩
  have hts : t ∈ sortedVals cfg := mem_sortedVals.2 ht
  rw [hcons] at hts ⊢
  have hsorted := sorted_sortedVals cfg
  rw [hcons, List.sorted_cons] at hsorted
  rcases List.mem_cons.1 hts with rfl | hts
  · simp
  · simpa using hsorted.1 t hts

/-- Claim C10, witness: current value 15 between ticks 10 and 30. -/
theorem offtick_arrows_smallest_tick_witness :
    datalistArrowValue ⟨0, 100, 0, true, [10, 20, 30]⟩ 15 true =
      (sortedVals ⟨0, 100, 0, true, [10, 20, 30]⟩).getD 0 0 ∧
    datalistArrowValue ⟨0, 100, 0, true, [10, 20, 30]⟩ 15 false =
      (sortedVals ⟨0, 100, 0, true, [10, 20, 30]⟩).getD 0 0 ∧
    ∀ t ∈ (⟨0, 100, 0, true, [10, 20, 30]⟩ : Cfg).opts,
      (sortedVals ⟨0, 100, 0, true, [10, 20, 30]⟩).getD 0 0 ≤ t :=
  offtick_arrows_smallest_tick ⟨0, 100, 0, true, [10, 20, 30]⟩ 15 (by decide) (by decide)

theorem setRangeValue_pending (s : WidgetState) (i : ℕ) (v : ℚ) :
    (setRangeValue s i v).pending = s.pending := by
  simp only [setRangeValue]
  cases s.inputs[i]? with
  | none => rfl
  | some inp =>
    simp only [applyUpdateValues]
    split <;> rfl

theorem setRangeValue_activeThumb (s : WidgetState) (i : ℕ) (v : ℚ) :
    (setRangeValue s i v).activeThumb = s.activeThumb := by
  simp only [setRangeValue]
  cases s.inputs[i]? with
  | none => rfl
  | some inp =>
    simp only [applyUpdateValues]
    split <;> rfl

theorem dispatchW_pending (s : WidgetState) (cls : EvClass) :
    (dispatchW s cls).1.pending = s.pending := by
  cases cls <;> simp only [dispatchW] <;> split <;> rfl

theorem dispatchW_activeThumb (s : WidgetState) (cls : EvClass) :
    (dispatchW s cls).1.activeThumb = s.activeThumb := by
  cases cls <;> simp only [dispatchW] <;> split <;> rfl

theorem dispatchW_values (s : WidgetState) (cls : EvClass) :
    (dispatchW s cls).1.values = s.values := by
  cases cls <;> simp only [dispatchW] <;> split <;> rfl

theorem jsMaxNat_mem {l : List ℕ} (h : l ≠ []) : jsMaxNat l ∈ l := by
  cases l with
  | nil => exact absurd rfl h
  | cons a t => exact foldl_max_mem t a

theorem le_jsMaxNat {l : List ℕ} : ∀ j ∈ l, j ≤ jsMaxNat l := by
  cases l with
  | nil => simp
  | cons a t => exact le_foldl_max t a

theorem jsMinNat_mem {l : List ℕ} (h : l ≠ []) : jsMinNat l ∈ l := by
  cases l with
  | nil => exact absurd rfl h
  | cons a t => exact foldl_min_mem t a

theorem jsMinNat_le {l : List ℕ} : ∀ j ∈ l, jsMinNat l ≤ j := by
  cases l with
  | nil => simp
  | cons a t => exact foldl_min_le t a

theorem handlePointerMove_resolves (s : WidgetState) (p : Pending) (x : ℚ)
    (hp : s.pending = some p) (hth : 2 < |x - p.initialX|) :
    (handlePointerMove s x).1.pending = none ∧
    (handlePointerMove s x).1.activeThumb =
      some (if 0 < x - p.initialX then jsMaxNat p.indices else jsMinNat p.indices) := by
  simp only [handlePointerMove, hp]
  rw [if_pos hth]
  cases hcr : s.containerRect with
  | none => simp [hcr]
  | some r =>
    simp only [hcr]
    constructor
    · rw [dispatchW_pending, setRangeValue_pending]
    · rw [dispatchW_activeThumb, setRangeValue_activeThumb]

/-- Claim C4: for each notification class separately, a notification fires if
and only if the current value sequence differs (element-wise, exactly) from
that class's last-emitted snapshot, firing updates the snapshot, a suppressed
dispatch changes nothing, and dispatching never changes the values; moreover
ArrowRight on a handle already at the domain maximum leaves the state
unchanged and fires neither an `input` nor a duplicate `change`. -/
theorem dispatch_fires_iff_changed :
    (∀ (s : WidgetState) (cls : EvClass),
        ((dispatchW s cls).2 = true ↔ s.values ≠ snapshotOf s cls) ∧
        ((dispatchW s cls).2 = true → snapshotOf (dispatchW s cls).1 cls = s.values) ∧
        ((dispatchW s cls).2 = false → (dispatchW s cls).1 = s) ∧
        (dispatchW s cls).1.values = s.values) ∧
    handleKeyDown ⟨⟨0, 100, 0, false, []⟩, [⟨100, none, none, none⟩],
        [100], [100], [100], none, none, none⟩ 0 Key.arrowRight =
      some (⟨⟨0, 100, 0, false, []⟩, [⟨100, none, none, none⟩],
        [100], [100], [100], none, none, none⟩, false, false) := by
  constructor
  · intro s cls
    cases cls with
    | input =>
      cases hsh : shallowEqual s.values s.prevInput with
      | true =>
        have heq := (shallowEqual_iff _ _).1 hsh
        simp [dispatchW, snapshotOf, hsh, heq, shallowEqual_self]
      | false =>
        have hne : s.values ≠ s.prevInput := fun hc => by
          rw [(shallowEqual_iff _ _).2 hc] at hsh; cases hsh
        simp [dispatchW, snapshotOf, hsh, hne]
    | change =>
      cases hsh : shallowEqual s.values s.prevChange with
      | true =>
        have heq := (shallowEqual_iff _ _).1 hsh
        simp [dispatchW, snapshotOf, hsh, heq, shallowEqual_self]
      | false =>
        have hne : s.values ≠ s.prevChange := fun hc => by
          rw [(shallowEqual_iff _ _).2 hc] at hsh; cases hsh
        simp [dispatchW, snapshotOf, hsh, hne]
  · have e1 : (Key.arrowRight = Key.homeK) = False := eq_false (by decide)
    have e2 : (Key.arrowRight = Key.endK) = False := eq_false (by decide)
    have e3 : (Key.arrowRight = Key.arrowLeft ∨ Key.arrowRight = Key.arrowDown) = False :=
      eq_false (by decide)
    have e4 : (Key.arrowRight = Key.arrowRight ∨ Key.arrowRight = Key.arrowUp) = True :=
      eq_true (by decide)
    have hset : setRangeValue ⟨⟨0, 100, 0, false, []⟩, [⟨100, none, none, none⟩],
        [100], [100], [100], none, none, none⟩ 0 101 =
        ⟨⟨0, 100, 0, false, []⟩, [⟨100, none, none, none⟩],
        [100], [100], [100], none, none, none⟩ := by
      norm_num [setRangeValue, normalizeValue, hasTicks, snapToDataList, prevInputAt,
        applyUpdateValues, updateValues, List.mapIdx_cons, List.mapIdx_nil, shallowEqual]
    norm_num [handleKeyDown, keyCandidate, jsStep, hasTicks, navKey, keyboardCommit, e1, e2,
      e3, e4, hset, shallowEqual, dispatchW]

/-- Claim C4, witness: a dispatch with values differing from the snapshot fires. -/
theorem dispatch_fires_iff_changed_witness :
    (dispatchW ⟨⟨0, 100, 0, false, []⟩, [], [5], [], [], none, none, none⟩ EvClass.input).2 = true :=
  (dispatch_fires_iff_changed.1
      ⟨⟨0, 100, 0, false, []⟩, [], [5], [], [], none, none, none⟩ EvClass.input).1.2
    (by simp [snapshotOf])

/-- Claim C5: a primary-button press on a thumb with more than one handle
within the overlap tolerance records the overlapping index set and the
initial X without activating a handle; the first later pointer-move whose
horizontal displacement exceeds 2 pixels clears the pending state and
activates the highest overlapping index when moving right, the lowest when
moving left. -/
theorem overlap_resolution :
    (∀ (s : WidgetState) (ti : ℕ) (x left width : ℚ),
        1 < (overlappingIndices s.values (s.values.getD ti 0)).length →
        (handleThumbPointerDown s 0 ti x left width).pending =
          some ⟨overlappingIndices s.values (s.values.getD ti 0), x⟩ ∧
        (handleThumbPointerDown s 0 ti x left width).activeThumb = none) ∧
    (∀ (s : WidgetState) (p : Pending) (x : ℚ),
        s.pending = some p → p.indices ≠ [] → 2 < |x - p.initialX| →
        (handlePointerMove s x).1.pending = none ∧
        ∃ m, (handlePointerMove s x).1.activeThumb = some m ∧ m ∈ p.indices ∧
          (0 < x - p.initialX → ∀ j ∈ p.indices, j ≤ m) ∧
          (x - p.initialX < 0 → ∀ j ∈ p.indices, m ≤ j)) := by
  constructor
  · intro s ti x left width hov
    constructor
    · simp only [handleThumbPointerDown]
      rw [if_neg (by simp : ¬ (0 : ℕ) ≠ 0), if_pos hov]
    · simp only [handleThumbPointerDown]
      rw [if_neg (by simp : ¬ (0 : ℕ) ≠ 0), if_pos hov]
  · intro s p x hp hne hth
    obtain ⟨hpend, hact⟩ := handlePointerMove_resolves s p x hp hth
    refine ⟨hpend, if 0 < x - p.initialX then jsMaxNat p.indices else jsMinNat p.indices,
      hact, ?_, ?_, ?_⟩
    · split_ifs with hdx
      · exact jsMaxNat_mem hne
      · exact jsMinNat_mem hne
    · intro hdx j hj
      rw [if_pos hdx]
      exact le_jsMaxNat j hj
    · intro hdx j hj
      rw [if_neg (not_lt.2 hdx.le)]
      exact jsMinNat_le j hj

/-- Claim C5, witness: two handles at 40, pending set `[0, 1]` recorded at
X 10, pointer moved to X 14 (displacement 4 to the right). -/
theorem overlap_resolution_witness :
    ((handleThumbPointerDown ⟨⟨0, 100, 0, false, []⟩,
        [⟨40, none, none, none⟩, ⟨40, none, none, none⟩],
        [40, 40], [40, 40], [40, 40], none, none, none⟩ 0 0 10 0 100).pending =
      some ⟨overlappingIndices [40, 40] ((([40, 40] : List ℚ)).getD 0 0), 10⟩ ∧
     (handleThumbPointerDown ⟨⟨0, 100, 0, false, []⟩,
        [⟨40, none, none, none⟩, ⟨40, none, none, none⟩],
        [40, 40], [40, 40], [40, 40], none, none, none⟩ 0 0 10 0 100).activeThumb = none) ∧
    ((handlePointerMove ⟨⟨0, 100, 0, false, []⟩,
        [⟨40, none, none, none⟩, ⟨40, none, none, none⟩],
        [40, 40], [40, 40], [40, 40], none, some ⟨[0, 1], 10⟩, some (0, 100)⟩ 14).1.pending =
        none ∧
     ∃ m, (handlePointerMove ⟨⟨0, 100, 0, false, []⟩,
        [⟨40, none, none, none⟩, ⟨40, none, none, none⟩],
        [40, 40], [40, 40], [40, 40], none, some ⟨[0, 1], 10⟩, some (0, 100)⟩ 14).1.activeThumb =
          some m ∧ m ∈ ([0, 1] : List ℕ) ∧
        (0 < (14 : ℚ) - 10 → ∀ j ∈ ([0, 1] : List ℕ), j ≤ m) ∧
        ((14 : ℚ) - 10 < 0 → ∀ j ∈ ([0, 1] : List ℕ), m ≤ j)) := by
  constructor
  · exact overlap_resolution.1 ⟨⟨0, 100, 0, false, []⟩,
      [⟨40, none, none, none⟩, ⟨40, none, none, none⟩],
      [40, 40], [40, 40], [40, 40], none, none, none⟩ 0 10 0 100
      (by norm_num [overlappingIndices, List.enum, List.enumFrom])
  · exact overlap_resolution.2 ⟨⟨0, 100, 0, false, []⟩,
      [⟨40, none, none, none⟩, ⟨40, none, none, none⟩],
      [40, 40], [40, 40], [40, 40], none, some ⟨[0, 1], 10⟩, some (0, 100)⟩ ⟨[0, 1], 10⟩ 14
      rfl (by simp)
      (by rw [show (14 : ℚ) - 10 = 4 by norm_num, abs_of_pos (by norm_num)]; norm_num)

theorem closestStep_foldl_spec (values : List ℚ) (v : ℚ) :
    ∀ (zs : List (ℕ × ℚ)) (ci : ℕ),
      (∀ q ∈ zs, q.1 < values.length ∧ values.getD q.1 0 = q.2) →
      ci < values.length →
      List.Pairwise (fun q r => q.1 < r.1) zs →
      (∀ q ∈ zs, ci ≤ q.1) →
      zs.foldl (closestStep values v) ci < values.length ∧
      |values.getD (zs.foldl (closestStep values v) ci) 0 - v| ≤ |values.getD ci 0 - v| ∧
      (∀ q ∈ zs, |values.getD (zs.foldl (closestStep values v) ci) 0 - v| ≤ |q.2 - v|) ∧
      (|values.getD (zs.foldl (closestStep values v) ci) 0 - v| < |values.getD ci 0 - v| ∨
        zs.foldl (closestStep values v) ci = ci) ∧
      (∀ q ∈ zs, |values.getD (zs.foldl (closestStep values v) ci) 0 - v| < |q.2 - v| ∨
        zs.foldl (closestStep values v) ci ≤ q.1) := by
  intro zs
  induction zs with
  | nil =>
    intro ci _ h2 _ _
    exact ⟨h2, le_refl _, by simp, Or.inr rfl, by simp⟩
  | cons q rest ih =>
    intro ci h1 h2 h3 h4
    obtain ⟨hqlen, hqval⟩ := h1 q (List.mem_cons_self _ _)
    have hrest1 : ∀ r ∈ rest, r.1 < values.length ∧ values.getD r.1 0 = r.2 :=
      fun r hr => h1 r (List.mem_cons.2 (Or.inr hr))
    have hpw := (List.pairwise_cons.1 h3).2
    have hlt := (List.pairwise_cons.1 h3).1
    rw [List.foldl_cons]
    by_cases hrep : |q.2 - v| < |values.getD ci 0 - v|
    · have hstep : closestStep values v ci q = q.1 := by
        simp only [closestStep]
        exact if_pos hrep
      rw [hstep]
      obtain ⟨g1, g2, g3, g4, g5⟩ :=
        ih q.1 hrest1 hqlen hpw (fun r hr => (hlt r hr).le)
      rw [hqval] at g2 g4
      refine ⟨g1, le_trans g2 hrep.le, ?_, Or.inl (lt_of_le_of_lt g2 hrep), ?_⟩
      · intro r hr
        rcases List.mem_cons.1 hr with rfl | hr
        · exact g2
        · exact g3 r hr
      · intro r hr
        rcases List.mem_cons.1 hr with rfl | hr
        · rcases g4 with hlt' | heq
          · exact Or.inl hlt'
          · exact Or.inr (le_of_eq heq)
        · exact g5 r hr
    · have hstep : closestStep values v ci q = ci := by
        simp only [closestStep]
        exact if_neg hrep
      rw [hstep]
      have hnl := not_lt.1 hrep
      obtain ⟨g1, g2, g3, g4, g5⟩ :=
        ih ci hrest1 h2 hpw (fun r hr => h4 r (List.mem_cons.2 (Or.inr hr)))
      refine ⟨g1, g2, ?_, g4, ?_⟩
      · intro r hr
        rcases List.mem_cons.1 hr with rfl | hr
        · exact le_trans g2 hnl
        · exact g3 r hr
      · intro r hr
        rcases List.mem_cons.1 hr with rfl | hr
        · rcases g4 with hlt' | heq
          · exact Or.inl (lt_of_lt_of_le hlt' hnl)
          · exact Or.inr (by rw [heq]; exact h4 r (List.mem_cons_self _ _))
        · exact g5 r hr

theorem closestThumbIndex_spec (values : List ℚ) (v : ℚ) (hne : values ≠ []) :
    closestThumbIndex values v < values.length ∧
    ∀ j, j < values.length →
      |values.getD (closestThumbIndex values v) 0 - v| ≤ |values.getD j 0 - v| ∧
      (|values.getD j 0 - v| = |values.getD (closestThumbIndex values v) 0 - v| →
        closestThumbIndex values v ≤ j) := by
  have hgd : ∀ (j : ℕ) (h : j < values.length), values.getD j 0 = values[j] := by
    intro j h
    simp [List.getD_eq_getElem?_getD, List.getElem?_eq_getElem h]
  have hzs : ∀ q ∈ values.enum, q.1 < values.length ∧ values.getD q.1 0 = q.2 := by
    intro q hq
    obtain ⟨i, hi, hget⟩ := List.mem_iff_getElem.1 hq
    have hi' : i < values.length := by simpa [List.enum_length] using hi
    rw [List.getElem_enum] at hget
    rw [← hget]
    exact ⟨hi', hgd i hi'⟩
  have hpw : List.Pairwise (fun q r : ℕ × ℚ => q.1 < r.1) values.enum := by
    have hr := List.pairwise_lt_range values.length
    rw [← List.enum_map_fst values] at hr
    exact List.pairwise_map.1 hr
  have h0 : 0 < values.length := List.length_pos.2 hne
  have hdef : closestThumbIndex values v = values.enum.foldl (closestStep values v) 0 := rfl
  obtain ⟨g1, _, g3, _, g5⟩ :=
    closestStep_foldl_spec values v values.enum 0 hzs h0 hpw (fun q _ => Nat.zero_le _)
  rw [← hdef] at g1 g3 g5
  refine ⟨g1, ?_⟩
  intro j hj
  have hjm : (j, values.getD j 0) ∈ values.enum := by
    refine List.mem_iff_getElem.2 ⟨j, by simpa [List.enum_length] using hj, ?_⟩
    rw [List.getElem_enum, hgd j hj]
  constructor
  · simpa using g3 (j, values.getD j 0) hjm
  · intro htie
    rcases g5 (j, values.getD j 0) hjm with hlt | hle
    · rw [htie] at hlt
      exact absurd hlt (lt_irrefl _)
    · exact hle

/-- Claim C6, counterexample: a track click mapping to value 55 with handles
at `[20, 80]` selects index 1 (the handle at 80, distance 25) rather than the
handle at 20 (distance 35): the resulting value sequence is `[20, 55]`, not
`[55, 80]`. -/
theorem track_click_closest_cx :
    closestThumbIndex [20, 80] 55 = 1 ∧
    (trackClick ⟨⟨0, 100, 0, false, []⟩,
        [⟨20, none, none, none⟩, ⟨80, none, none, none⟩],
        [20, 80], [20, 80], [20, 80], none, none, none⟩ 0 55 0 100).1.values = [20, 55] ∧
    ([20, 55] : List ℚ) ≠ [55, 80] := by
  refine ⟨?_, ?_, by norm_num⟩
  · norm_num [closestThumbIndex, List.enum, List.enumFrom, List.foldl, List.getD]
  · norm_num [trackClick, pointerValue, closestThumbIndex, List.enum, List.enumFrom,
      List.foldl, List.getD, setRangeValue, normalizeValue, hasTicks, snapToDataList,
      prevInputAt, applyUpdateValues, updateValues, List.mapIdx_cons, List.mapIdx_nil,
      shallowEqual, dispatchW]

/-- Claim C6 (amended): the track-click selection picks the handle whose
current value is numerically closest to the computed value, ties broken by
the lowest index; at value 55 with handles `[20, 80]` that is the handle at
80 (index 1), which updates to 55, immediately followed by exactly one
`input` and one `change` notification, with no drag session started. -/
theorem track_click_scenario :
    (∀ (values : List ℚ) (v : ℚ), values ≠ [] →
        closestThumbIndex values v < values.length ∧
        ∀ j, j < values.length →
          |values.getD (closestThumbIndex values v) 0 - v| ≤ |values.getD j 0 - v| ∧
          (|values.getD j 0 - v| = |values.getD (closestThumbIndex values v) 0 - v| →
            closestThumbIndex values v ≤ j)) ∧
    ((trackClick ⟨⟨0, 100, 0, false, []⟩,
        [⟨20, none, none, none⟩, ⟨80, none, none, none⟩],
        [20, 80], [20, 80], [20, 80], none, none, none⟩ 0 55 0 100).1.values = [20, 55] ∧
     (trackClick ⟨⟨0, 100, 0, false, []⟩,
        [⟨20, none, none, none⟩, ⟨80, none, none, none⟩],
        [20, 80], [20, 80], [20, 80], none, none, none⟩ 0 55 0 100).2.1 = true ∧
     (trackClick ⟨⟨0, 100, 0, false, []⟩,
        [⟨20, none, none, none⟩, ⟨80, none, none, none⟩],
        [20, 80], [20, 80], [20, 80], none, none, none⟩ 0 55 0 100).2.2 = true ∧
     (trackClick ⟨⟨0, 100, 0, false, []⟩,
        [⟨20, none, none, none⟩, ⟨80, none, none, none⟩],
        [20, 80], [20, 80], [20, 80], none, none, none⟩ 0 55 0 100).1.activeThumb = none ∧
     (trackClick ⟨⟨0, 100, 0, false, []⟩,
        [⟨20, none, none, none⟩, ⟨80, none, none, none⟩],
        [20, 80], [20, 80], [20, 80], none, none, none⟩ 0 55 0 100).1.pending = none) := by
  refine ⟨fun values v hne => closestThumbIndex_spec values v hne, ?_⟩
  norm_num [trackClick, pointerValue, closestThumbIndex, List.enum, List.enumFrom,
    List.foldl, List.getD, setRangeValue, normalizeValue, hasTicks, snapToDataList,
    prevInputAt, applyUpdateValues, updateValues, List.mapIdx_cons, List.mapIdx_nil,
    shallowEqual, dispatchW]

/-- Claim C6, witness of the general closest-selection conjunct at the
scenario values. -/
theorem track_click_scenario_witness :
    closestThumbIndex [20, 80] 55 < ([20, 80] : List ℚ).length ∧
    ∀ j, j < ([20, 80] : List ℚ).length →
      |([20, 80] : List ℚ).getD (closestThumbIndex [20, 80] 55) 0 - 55| ≤
        |([20, 80] : List ℚ).getD j 0 - 55| ∧
      (|([20, 80] : List ℚ).getD j 0 - 55| =
          |([20, 80] : List ℚ).getD (closestThumbIndex [20, 80] 55) 0 - 55| →
        closestThumbIndex [20, 80] 55 ≤ j) :=
  track_click_scenario.1 [20, 80] 55 (by simp)

theorem datalistArrow_directional (cfg : Cfg) (cur : ℚ) (hT : hasTicks cfg = true)
    (hnd : cfg.opts.Nodup) (hmem : cur ∈ cfg.opts) :
    datalistArrowValue cfg cur false =
      (listMinQ (cfg.opts.filter (fun t => decide (cur < t)))).getD cur ∧
    datalistArrowValue cfg cur true =
      (listMaxQ (cfg.opts.filter (fun t => decide (t < cur)))).getD cur := by
  have hsort : List.Sorted (· ≤ ·) (sortedVals cfg) := sorted_sortedVals cfg
  have hlnd : (sortedVals cfg).Nodup :=
    (List.perm_insertionSort (· ≤ ·) cfg.opts).symm.nodup hnd
  have hstrict : List.Sorted (· < ·) (sortedVals cfg) :=
    (List.Pairwise.and hsort hlnd).imp (fun h => lt_of_le_of_ne h.1 h.2)
  have hgd : ∀ (j : ℕ) (h : j < (sortedVals cfg).length),
      (sortedVals cfg).getD j 0 = (sortedVals cfg)[j] := by
    intro j h
    simp [List.getD_eq_getElem?_getD, List.getElem?_eq_getElem h]
  have hle_get : ∀ (j k : ℕ) (hj : j < (sortedVals cfg).length)
      (hk : k < (sortedVals cfg).length), j ≤ k → (sortedVals cfg)[j] ≤ (sortedVals cfg)[k] := by
    intro j k hj hk hjk
    rcases eq_or_lt_of_le hjk with rfl | hlt
    · exact le_refl _
    · have := hsort.rel_get_of_lt (a := ⟨j, hj⟩) (b := ⟨k, hk⟩) (by simpa using hlt)
      simpa using this
  have hlt_get : ∀ (j k : ℕ) (hj : j < (sortedVals cfg).length)
      (hk : k < (sortedVals cfg).length), j < k → (sortedVals cfg)[j] < (sortedVals cfg)[k] := by
    intro j k hj hk hjk
    have := hstrict.rel_get_of_lt (a := ⟨j, hj⟩) (b := ⟨k, hk⟩) (by simpa using hjk)
    simpa using this
  have hcl : cur ∈ sortedVals cfg := mem_sortedVals.2 hmem
  obtain ⟨n, hn⟩ : ∃ n, idxOf? cur (sortedVals cfg) = some n := by
    cases hi : idxOf? cur (sortedVals cfg) with
    | none => exact absurd (idxOf?_eq_none.1 hi) (by simpa using hcl)
    | some n => exact ⟨n, rfl⟩
  obtain ⟨hnlen, hget⟩ := idxOf?_some hn
  have hcur : (sortedVals cfg)[n] = cur := by
    have := List.getElem?_eq_getElem hnlen
    rw [this] at hget
    exact Option.some.inj hget
  have hji : jsIndexOf (sortedVals cfg) cur = (n : ℤ) := by simp [jsIndexOf, hn]
  have hidx_of_mem : ∀ x ∈ cfg.opts, ∃ (j : ℕ) (hj : j < (sortedVals cfg).length),
      (sortedVals cfg)[j] = x := by
    intro x hx
    exact List.mem_iff_getElem.1 (mem_sortedVals.2 hx)
  constructor
  · by_cases htop : n + 1 < (sortedVals cfg).length
    · have hidx : (min (((sortedVals cfg).length : ℤ) - 1) ((n : ℤ) + 1)).toNat = n + 1 := by
        have h1 : (n : ℤ) + 1 < ((sortedVals cfg).length : ℤ) := by exact_mod_cast htop
        omega
      have hlhs : datalistArrowValue cfg cur false = (sortedVals cfg)[n + 1] := by
        rw [datalistArrowValue]
        simp only [hji, Bool.false_eq_true, if_false, hidx]
        exact hgd (n + 1) htop
      have htmem : (sortedVals cfg)[n + 1] ∈ cfg.opts :=
        mem_sortedVals.1 (List.getElem_mem htop)
      have htgt : cur < (sortedVals cfg)[n + 1] := by
        rw [← hcur]
        exact hlt_get n (n + 1) hnlen htop (Nat.lt_succ_self n)
      have hminq : listMinQ (cfg.opts.filter (fun t => decide (cur < t))) =
          some ((sortedVals cfg)[n + 1]) := by
        apply listMinQ_eq_some_of
        · exact List.mem_filter.2 ⟨htmem, by simpa using htgt⟩
        · intro x hx
          obtain ⟨hxo, hxgt⟩ := List.mem_filter.1 hx
          have hxgt' : cur < x := by simpa using hxgt
          obtain ⟨j, hj, hxj⟩ := hidx_of_mem x hxo
          have hnj : n < j := by
            by_contra hc
            have : (sortedVals cfg)[j] ≤ (sortedVals cfg)[n] :=
              hle_get j n hj hnlen (not_lt.1 hc)
            rw [hxj, hcur] at this
            exact absurd hxgt' (not_lt.2 this)
          rw [← hxj]
          exact hle_get (n + 1) j htop hj hnj
      rw [hlhs, hminq]
      rfl
    · have hn1 : n + 1 = (sortedVals cfg).length := by omega
      have hidx : (min (((sortedVals cfg).length : ℤ) - 1) ((n : ℤ) + 1)).toNat = n := by
        have h1 : ((sortedVals cfg).length : ℤ) = (n : ℤ) + 1 := by exact_mod_cast hn1.symm
        omega
      have hlhs : datalistArrowValue cfg cur false = cur := by
        rw [datalistArrowValue]
        simp only [hji, Bool.false_eq_true, if_false, hidx]
        rw [hgd n hnlen, hcur]
      have hfilt : cfg.opts.filter (fun t => decide (cur < t)) = [] := by
        rw [List.filter_eq_nil_iff]
        intro x hx
        obtain ⟨j, hj, hxj⟩ := hidx_of_mem x hx
        have hjle : j ≤ n := by omega
        have : (sortedVals cfg)[j] ≤ (sortedVals cfg)[n] := hle_get j n hj hnlen hjle
        rw [hxj, hcur] at this
        simpa using not_lt.2 this
      rw [hlhs, hfilt]
      rfl
  · by_cases hbot : 0 < n
    · have hn1 : n - 1 < (sortedVals cfg).length := by omega
      have hidx : (max 0 ((n : ℤ) - 1)).toNat = n - 1 := by omega
      have hlhs : datalistArrowValue cfg cur true = (sortedVals cfg)[n - 1] := by
        rw [datalistArrowValue]
        simp only [hji, if_true, hidx]
        exact hgd (n - 1) hn1
      have htmem : (sortedVals cfg)[n - 1] ∈ cfg.opts :=
        mem_sortedVals.1 (List.getElem_mem hn1)
      have htgt : (sortedVals cfg)[n - 1] < cur := by
        rw [← hcur]
        exact hlt_get (n - 1) n hn1 hnlen (by omega)
      have hmaxq : listMaxQ (cfg.opts.filter (fun t => decide (t < cur))) =
          some ((sortedVals cfg)[n - 1]) := by
        apply listMaxQ_eq_some_of
        · exact List.mem_filter.2 ⟨htmem, by simpa using htgt⟩
        · intro x hx
          obtain ⟨hxo, hxlt⟩ := List.mem_filter.1 hx
          have hxlt' : x < cur := by simpa using hxlt
          obtain ⟨j, hj, hxj⟩ := hidx_of_mem x hxo
          have hjn : j < n := by
            by_contra hc
            have : (sortedVals cfg)[n] ≤ (sortedVals cfg)[j] :=
              hle_get n j hnlen hj (not_lt.1 hc)
            rw [hxj, hcur] at this
            exact absurd hxlt' (not_lt.2 this)
          rw [← hxj]
          exact hle_get j (n - 1) hj hn1 (by omega)
      rw [hlhs, hmaxq]
      rfl
    · have hn0 : n = 0 := by omega
      subst hn0
      have hidx : (max 0 (((0 : ℕ) : ℤ) - 1)).toNat = 0 := by omega
      have hlhs : datalistArrowValue cfg cur true = cur := by
        rw [datalistArrowValue]
        simp only [hji, if_true, hidx]
        rw [hgd 0 hnlen, hcur]
      have hfilt : cfg.opts.filter (fun t => decide (t < cur)) = [] := by
        rw [List.filter_eq_nil_iff]
        intro x hx
        obtain ⟨j, hj, hxj⟩ := hidx_of_mem x hx
        have : (sortedVals cfg)[0] ≤ (sortedVals cfg)[j] :=
          hle_get 0 j hnlen hj (by omega)
        rw [hxj, hcur] at this
        simpa using not_lt.2 this
      rw [hlhs, hfilt]
      rfl

/-- Claim C7, counterexample: with ticks `[10, 20, 30]` and the focused
handle at the off-tick value 15, ArrowRight produces 10 — the smallest tick,
below the current value — not the directionally adjacent tick 20. -/
theorem keydown_offtick_cx :
    handleKeyDown ⟨⟨0, 100, 0, true, [10, 20, 30]⟩, [⟨15, none, none, none⟩],
        [15], [15], [15], none, none, none⟩ 0 Key.arrowRight =
      some (⟨⟨0, 100, 0, true, [10, 20, 30]⟩, [⟨10, none, none, none⟩],
        [10], [10], [10], none, none, none⟩, true, true) ∧
    (10 : ℚ) < 15 ∧ (10 : ℚ) ≠ 20 := by
  refine ⟨?_, by norm_num, by norm_num⟩
  have e3 : (Key.arrowRight = Key.arrowLeft ∨ Key.arrowRight = Key.arrowDown) = False :=
    eq_false (by decide)
  have e4 : (Key.arrowRight = Key.arrowRight ∨ Key.arrowRight = Key.arrowUp) = True :=
    eq_true (by decide)
  have e1 : (Key.arrowRight = Key.homeK) = False := eq_false (by decide)
  have e2 : (Key.arrowRight = Key.endK) = False := eq_false (by decide)
  have hset : setRangeValue ⟨⟨0, 100, 0, true, [10, 20, 30]⟩, [⟨15, none, none, none⟩],
      [15], [15], [15], none, none, none⟩ 0 10 =
      ⟨⟨0, 100, 0, true, [10, 20, 30]⟩, [⟨10, none, none, none⟩],
      [10], [15], [15], none, none, none⟩ := by
    norm_num [setRangeValue, normalizeValue, hasTicks, snapToDataList, prevInputAt,
      applyUpdateValues, updateValues, List.mapIdx_cons, List.mapIdx_nil, shallowEqual,
      List.foldl]
  have hcand : keyCandidate ⟨0, 100, 0, true, [10, 20, 30]⟩ ⟨15, none, none, none⟩
      Key.arrowRight = 10 := by
    norm_num [keyCandidate, hasTicks, e1, e2, e3, e4, datalistArrowValue, jsIndexOf, idxOf?,
      sortedVals, List.insertionSort, List.orderedInsert, jsStep]
  norm_num [handleKeyDown, navKey, keyboardCommit, hcand, hset, shallowEqual, dispatchW]

/-- Claim C7 (amended): a keydown on a focused handle with a backing input is
accepted exactly for the arrow keys, Home and End; every other key (and any
key when the input is missing) is a no-op that does not consume the event.
An accepted key computes its candidate — Home gives domain.min, End gives
domain.max, arrows step by the input's step size, or move through the sorted
tick list when a non-empty discrete domain is active — writes it through the
normalizer and then performs the `input` and `change` dispatches (each firing
iff the value sequence changed since that class's last emission).  When the
current value equals a tick of a duplicate-free tick set, ArrowRight moves to
the smallest tick strictly above it (staying put at the top) and ArrowLeft to
the largest tick strictly below it (staying put at the bottom); off-tick
values instead yield the smallest tick in both directions. -/
theorem keydown_behavior :
    (∀ (s : WidgetState) (i : ℕ) (name : String),
        handleKeyDown s i (Key.other name) = none) ∧
    (∀ (s : WidgetState) (i : ℕ) (k : Key),
        s.inputs[i]? = none → handleKeyDown s i k = none) ∧
    (∀ (s : WidgetState) (i : ℕ) (k : Key) (inp : RangeInput),
        s.inputs[i]? = some inp → navKey k = true →
        handleKeyDown s i k = some (keyboardCommit s i (keyCandidate s.cfg inp k))) ∧
    (∀ (cfg : Cfg) (inp : RangeInput),
        keyCandidate cfg inp Key.homeK = cfg.min ∧
        keyCandidate cfg inp Key.endK = cfg.max) ∧
    (∀ (cfg : Cfg) (inp : RangeInput), hasTicks cfg = false →
        keyCandidate cfg inp Key.arrowRight = inp.value + jsStep inp ∧
        keyCandidate cfg inp Key.arrowUp = inp.value + jsStep inp ∧
        keyCandidate cfg inp Key.arrowLeft = inp.value - jsStep inp ∧
        keyCandidate cfg inp Key.arrowDown = inp.value - jsStep inp) ∧
    (∀ (cfg : Cfg) (inp : RangeInput), hasTicks cfg = true →
        keyCandidate cfg inp Key.arrowRight = datalistArrowValue cfg inp.value false ∧
        keyCandidate cfg inp Key.arrowUp = datalistArrowValue cfg inp.value false ∧
        keyCandidate cfg inp Key.arrowLeft = datalistArrowValue cfg inp.value true ∧
        keyCandidate cfg inp Key.arrowDown = datalistArrowValue cfg inp.value true) ∧
    (∀ (cfg : Cfg) (cur : ℚ), hasTicks cfg = true → cfg.opts.Nodup → cur ∈ cfg.opts →
        datalistArrowValue cfg cur false =
          (listMinQ (cfg.opts.filter (fun t => decide (cur < t)))).getD cur ∧
        datalistArrowValue cfg cur true =
          (listMaxQ (cfg.opts.filter (fun t => decide (t < cur)))).getD cur) := by
  refine ⟨?_, ?_, ?_, ?_, ?_, ?_, datalistArrow_directional⟩
  · intro s i name
    cases h : s.inputs[i]? with
    | none => simp [handleKeyDown, h]
    | some inp => simp [handleKeyDown, h, navKey]
  · intro s i k h
    simp [handleKeyDown, h]
  · intro s i k inp h hk
    simp [handleKeyDown, h, hk]
  · intro cfg inp
    constructor <;> simp [keyCandidate]
  · intro cfg inp hT
    refine ⟨?_, ?_, ?_, ?_⟩ <;> simp [keyCandidate, hT]
  · intro cfg inp hT
    refine ⟨?_, ?_, ?_, ?_⟩ <;> simp [keyCandidate, hT]

/-- Claim C7, witness: the arrow, Home/End and other-key behaviors at a
concrete state, and the directional stepping on ticks `[10, 20, 30]` from the
on-tick value 20. -/
theorem keydown_behavior_witness :
    handleKeyDown ⟨⟨0, 100, 0, false, []⟩, [⟨50, none, none, none⟩],
        [50], [50], [50], none, none, none⟩ 0 (Key.other "a") = none ∧
    (keyCandidate ⟨0, 100, 0, false, []⟩ ⟨50, none, none, none⟩ Key.homeK = 0 ∧
     keyCandidate ⟨0, 100, 0, false, []⟩ ⟨50, none, none, none⟩ Key.endK = 100) ∧
    datalistArrowValue ⟨0, 100, 0, true, [10, 20, 30]⟩ 20 false =
      (listMinQ (([10, 20, 30] : List ℚ).filter (fun t => decide ((20 : ℚ) < t)))).getD 20 ∧
    datalistArrowValue ⟨0, 100, 0, true, [10, 20, 30]⟩ 20 true =
      (listMaxQ (([10, 20, 30] : List ℚ).filter (fun t => decide (t < (20 : ℚ))))).getD 20 := by
  refine ⟨keydown_behavior.1 _ 0 "a", keydown_behavior.2.2.2.1 ⟨0, 100, 0, false, []⟩
    ⟨50, none, none, none⟩, ?_, ?_⟩
  · exact (keydown_behavior.2.2.2.2.2.2 ⟨0, 100, 0, true, [10, 20, 30]⟩ 20 (by decide)
      (by norm_num) (by norm_num)).1
  · exact (keydown_behavior.2.2.2.2.2.2 ⟨0, 100, 0, true, [10, 20, 30]⟩ 20 (by decide)
      (by norm_num) (by norm_num)).2

theorem normalizeValue_decompose (cfg : Cfg) (inputs : List RangeInput) (i : ℕ)
    (inp : RangeInput) (hin : inputs[i]? = some inp) :
    ∀ w, normalizeValue cfg inputs w i =
      max (max cfg.min (inp.minAttr.getD cfg.min))
        (min (min cfg.max (inp.maxAttr.getD cfg.max))
          (adjNext cfg ((inputs[i + 1]?).map RangeInput.value)
            (adjPrev cfg ((prevInputAt inputs i).map RangeInput.value)
              (if hasTicks cfg then snapToDataList cfg w else w)))) := by
  intro w
  simp only [normalizeValue, hin]
  cases hprev : prevInputAt inputs i <;> cases hnext : inputs[i + 1]? <;>
    simp [adjPrev, adjNext, hprev, hnext]

theorem adjPrev_idem (cfg : Cfg) (pv? : Option ℚ) (x : ℚ) :
    adjPrev cfg pv? (adjPrev cfg pv? x) = adjPrev cfg pv? x := by
  cases pv? with
  | none => rfl
  | some pv =>
    simp only [adjPrev]
    by_cases hx : x < pv + cfg.stepBetween
    · rw [if_pos hx]
      by_cases hT : hasTicks cfg
      · rw [if_pos hT]
        cases hF : tickCeil cfg (pv + cfg.stepBetween) with
        | some t =>
          obtain ⟨hat, _, _⟩ := tickCeil_some hF
          simp only [Option.getD_some]
          rw [if_neg (not_lt.2 hat)]
        | none =>
          simp only [Option.getD_none]
          rw [if_pos hx, if_pos hT]
      · rw [if_neg hT, if_neg (lt_irrefl _)]
    · rw [if_neg hx, if_neg hx]

theorem adjNext_idem (cfg : Cfg) (nv? : Option ℚ) (x : ℚ) :
    adjNext cfg nv? (adjNext cfg nv? x) = adjNext cfg nv? x := by
  cases nv? with
  | none => rfl
  | some nv =>
    simp only [adjNext]
    by_cases hx : nv - cfg.stepBetween < x
    · rw [if_pos hx]
      by_cases hT : hasTicks cfg
      · rw [if_pos hT]
        cases hG : tickFloor cfg (nv - cfg.stepBetween) with
        | some t =>
          obtain ⟨htb, _, _⟩ := tickFloor_some hG
          simp only [Option.getD_some]
          rw [if_neg (not_lt.2 htb)]
        | none =>
          simp only [Option.getD_none]
          rw [if_pos hx, if_pos hT]
      · rw [if_neg hT, if_neg (lt_irrefl _)]
    · rw [if_neg hx, if_neg hx]

theorem adjPrev_mem {cfg : Cfg} (hT : hasTicks cfg = true) (pv? : Option ℚ) {x : ℚ}
    (hx : x ∈ cfg.opts) : adjPrev cfg pv? x ∈ cfg.opts := by
  cases pv? with
  | none => exact hx
  | some pv =>
    simp only [adjPrev]
    by_cases h1 : x < pv + cfg.stepBetween
    · rw [if_pos h1, if_pos hT]
      cases hF : tickCeil cfg (pv + cfg.stepBetween) with
      | some t =>
        simp only [Option.getD_some]
        exact (tickCeil_some hF).2.1
      | none => simp only [Option.getD_none]; exact hx
    · rw [if_neg h1]; exact hx

theorem adjNext_mem {cfg : Cfg} (hT : hasTicks cfg = true) (nv? : Option ℚ) {x : ℚ}
    (hx : x ∈ cfg.opts) : adjNext cfg nv? x ∈ cfg.opts := by
  cases nv? with
  | none => exact hx
  | some nv =>
    simp only [adjNext]
    by_cases h1 : nv - cfg.stepBetween < x
    · rw [if_pos h1, if_pos hT]
      cases hG : tickFloor cfg (nv - cfg.stepBetween) with
      | some t =>
        simp only [Option.getD_some]
        exact (tickFloor_some hG).2.1
      | none => simp only [Option.getD_none]; exact hx
    · rw [if_neg h1]; exact hx

theorem adj_idem {cfg : Cfg} (hT : hasTicks cfg = true) (pv? nv? : Option ℚ) {s : ℚ}
    (hs : s ∈ cfg.opts) :
    adjNext cfg nv? (adjPrev cfg pv? (adjNext cfg nv? (adjPrev cfg pv? s))) =
      adjNext cfg nv? (adjPrev cfg pv? s) := by
  cases pv? with
  | none =>
    simp only [adjPrev]
    exact adjNext_idem cfg nv? s
  | some pv =>
    cases nv? with
    | none =>
      simp only [adjNext]
      exact adjPrev_idem cfg (some pv) s
    | some nv =>
      simp only [adjPrev, adjNext, hT, eq_self_iff_true, if_true]
      set a := pv + cfg.stepBetween with ha
      set b := nv - cfg.stepBetween with hb
      by_cases hsa : s < a
      · rw [if_pos hsa]
        cases hF : tickCeil cfg a with
        | some t1 =>
          obtain ⟨hat1, ht1mem, ht1min⟩ := tickCeil_some hF
          simp only [Option.getD_some]
          by_cases hbt1 : b < t1
          · rw [if_pos hbt1]
            cases hG : tickFloor cfg b with
            | some t2 =>
              obtain ⟨ht2b, ht2mem, ht2max⟩ := tickFloor_some hG
              simp only [Option.getD_some]
              by_cases ht2a : t2 < a
              · rw [if_pos ht2a, if_pos hbt1]
              · rw [if_neg ht2a, if_neg (not_lt.2 ht2b)]
            | none =>
              simp only [Option.getD_none]
              rw [if_neg (not_lt.2 hat1), if_pos hbt1]
          · rw [if_neg hbt1, if_neg (not_lt.2 hat1), if_neg hbt1]
        | none =>
          have hall := tickCeil_none hF
          simp only [Option.getD_none]
          by_cases hbs : b < s
          · rw [if_pos hbs]
            cases hG : tickFloor cfg b with
            | some t2 =>
              obtain ⟨ht2b, ht2mem, ht2max⟩ := tickFloor_some hG
              simp only [Option.getD_some]
              have ht2a : t2 < a := hall t2 ht2mem
              rw [if_pos ht2a, if_neg (not_lt.2 ht2b)]
            | none =>
              simp only [Option.getD_none]
              rw [if_pos hsa, if_pos hbs]
          · rw [if_neg hbs, if_pos hsa, if_neg hbs]
      · rw [if_neg hsa]
        by_cases hbs : b < s
        · rw [if_pos hbs]
          cases hG : tickFloor cfg b with
          | some t2 =>
            obtain ⟨ht2b, ht2mem, ht2max⟩ := tickFloor_some hG
            simp only [Option.getD_some]
            by_cases ht2a : t2 < a
            · cases hF : tickCeil cfg a with
              | some t1 =>
                obtain ⟨hat1, ht1mem, ht1min⟩ := tickCeil_some hF
                simp only [Option.getD_some]
                rw [if_pos ht2a]
                have hbt1 : b < t1 := by
                  by_contra hc
                  have h1 := ht2max t1 ht1mem (not_lt.1 hc)
                  linarith
                rw [if_pos hbt1]
              | none =>
                exact absurd (tickCeil_none hF s hs) (not_lt.2 (not_lt.1 hsa))
            · rw [if_neg ht2a, if_neg (not_lt.2 ht2b)]
          | none =>
            simp only [Option.getD_none]
            rw [if_neg hsa, if_pos hbs]
        · rw [if_neg hbs, if_neg hsa, if_neg hbs]

theorem ite_lt_eq_max (x c : ℚ) : (if x < c then c else x) = max x c := by
  rcases le_or_lt c x with h | h
  · rw [if_neg (not_lt.2 h), max_eq_left h]
  · rw [if_pos h, max_eq_right h.le]

theorem ite_gt_eq_min (x c : ℚ) : (if c < x then c else x) = min x c := by
  rcases le_or_lt x c with h | h
  · rw [if_neg (not_lt.2 h), min_eq_left h]
  · rw [if_pos h, min_eq_right h.le]

theorem idem_core_nn (A B v : ℚ) : max A (min B (max A (min B v))) = max A (min B v) := by
  simp only [max_def, min_def]
  split_ifs <;> linarith

set_option maxHeartbeats 1600000 in
theorem idem_core_p (A B a v : ℚ) :
    max A (min B (max (max A (min B (max v a))) a)) = max A (min B (max v a)) := by
  simp only [max_def, min_def]
  split_ifs <;> linarith

set_option maxHeartbeats 1600000 in
theorem idem_core_n (A B b v : ℚ) :
    max A (min B (min (max A (min B (min v b))) b)) = max A (min B (min v b)) := by
  simp only [max_def, min_def]
  split_ifs <;> linarith

set_option maxHeartbeats 1600000 in
theorem idem_core_pn (A B a b v : ℚ) :
    max A (min B (min (max (max A (min B (min (max v a) b))) a) b)) =
      max A (min B (min (max v a) b)) := by
  simp only [max_def, min_def]
  split_ifs <;> linarith

/-- Claim C3, counterexample: with ticks `[0, 50, 200]` and domain `[0, 100]`
the first normalize of 300 snaps to 200 and clamps to 100, but normalizing
100 again snaps it to the tick 50: normalize is not idempotent when a tick
lies outside the clamp range. -/
theorem normalize_idem_cx :
    normalizeValue ⟨0, 100, 0, true, [0, 50, 200]⟩ [⟨0, none, none, none⟩] 300 0 = 100 ∧
    normalizeValue ⟨0, 100, 0, true, [0, 50, 200]⟩ [⟨0, none, none, none⟩]
      (normalizeValue ⟨0, 100, 0, true, [0, 50, 200]⟩ [⟨0, none, none, none⟩] 300 0) 0 = 50 ∧
    (50 : ℚ) ≠ 100 := by
  have h1 : normalizeValue ⟨0, 100, 0, true, [0, 50, 200]⟩ [⟨0, none, none, none⟩] 300 0 =
      100 := by
    norm_num [normalizeValue, hasTicks, snapToDataList, prevInputAt, tickCeil, tickFloor,
      sortedVals, List.insertionSort, List.orderedInsert, List.foldl, List.find?]
  refine ⟨h1, ?_, by norm_num⟩
  rw [h1]
  norm_num [normalizeValue, hasTicks, snapToDataList, prevInputAt, tickCeil, tickFloor,
    sortedVals, List.insertionSort, List.orderedInsert, List.foldl, List.find?]

/-- Claim C3 (amended): normalize is idempotent for every fixed state in
which the tick set is empty (or the `list` attribute is unset), and also
whenever every tick value lies within the effective clamp range of the
normalized index (the intersection of the domain with the input's own
min/max attributes); the counterexample shows the restriction is necessary. -/
theorem normalize_idem :
    ∀ (cfg : Cfg) (inputs : List RangeInput) (i : ℕ) (v : ℚ),
      (hasTicks cfg = false ∨
        ∀ t ∈ cfg.opts, clampLoAt cfg inputs i ≤ t ∧ t ≤ clampHiAt cfg inputs i) →
      normalizeValue cfg inputs (normalizeValue cfg inputs v i) i =
        normalizeValue cfg inputs v i := by
  intro cfg inputs i v hyp
  cases hin : inputs[i]? with
  | none => simp only [normalizeValue, hin]
  | some inp =>
    have hdec := normalizeValue_decompose cfg inputs i inp hin
    by_cases hT : hasTicks cfg = true
    · have htick : ∀ t ∈ cfg.opts,
          max cfg.min (inp.minAttr.getD cfg.min) ≤ t ∧
          t ≤ min cfg.max (inp.maxAttr.getD cfg.max) := by
        rcases hyp with hfalse | ht
        · rw [hT] at hfalse; cases hfalse
        · intro t htm
          have h1 := ht t htm
          simp only [clampLoAt, clampHiAt, hin] at h1
          exact h1
      have hclamp : ∀ t ∈ cfg.opts,
          max (max cfg.min (inp.minAttr.getD cfg.min))
            (min (min cfg.max (inp.maxAttr.getD cfg.max)) t) = t := by
        intro t htm
        obtain ⟨hA, hB⟩ := htick t htm
        rw [min_eq_right hB, max_eq_right hA]
      have hsmem := snap_mem hT v
      have hwmem : adjNext cfg ((inputs[i + 1]?).map RangeInput.value)
          (adjPrev cfg ((prevInputAt inputs i).map RangeInput.value)
            (snapToDataList cfg v)) ∈ cfg.opts :=
        adjNext_mem hT _ (adjPrev_mem hT _ hsmem)
      have hinner : normalizeValue cfg inputs v i =
          adjNext cfg ((inputs[i + 1]?).map RangeInput.value)
            (adjPrev cfg ((prevInputAt inputs i).map RangeInput.value)
              (snapToDataList cfg v)) := by
        rw [hdec v, if_pos hT]
        exact hclamp _ hwmem
      rw [hinner, hdec _, if_pos hT, snap_self hT hwmem, adj_idem hT _ _ hsmem]
      exact hclamp _ hwmem
    · have hTf : hasTicks cfg = false := by
        cases hb : hasTicks cfg
        · rfl
        · exact absurd hb hT
      rw [hdec (normalizeValue cfg inputs v i), hdec v, hTf]
      simp only [Bool.false_eq_true, if_false]
      cases hprev : (prevInputAt inputs i).map RangeInput.value <;>
        cases hnext : (inputs[i + 1]?).map RangeInput.value <;>
          simp only [adjPrev, adjNext, hTf, Bool.false_eq_true, if_false, ite_lt_eq_max,
            ite_gt_eq_min]
      · exact idem_core_nn _ _ _
      · exact idem_core_n _ _ _ _
      · exact idem_core_p _ _ _ _
      · exact idem_core_pn _ _ _ _ _

/-- Claim C3, witness: ticks `[0, 50, 100]` all inside the domain `[0, 100]`;
normalizing 63 twice equals normalizing it once. -/
theorem normalize_idem_witness :
    normalizeValue ⟨0, 100, 0, true, [0, 50, 100]⟩ [⟨20, none, none, none⟩]
      (normalizeValue ⟨0, 100, 0, true, [0, 50, 100]⟩ [⟨20, none, none, none⟩] 63 0) 0 =
    normalizeValue ⟨0, 100, 0, true, [0, 50, 100]⟩ [⟨20, none, none, none⟩] 63 0 :=
  normalize_idem ⟨0, 100, 0, true, [0, 50, 100]⟩ [⟨20, none, none, none⟩] 0 63
    (Or.inr (by norm_num [clampLoAt, clampHiAt]))

end RangeGroup
